import Mathlib

/-!
Verification of the streak/badge computation engine of `src/app.py`
(a study-tracking Flask application).

Embedding conventions:
* A calendar date is embedded as its proleptic-Gregorian ordinal day number
  (an integer, as produced by Python's `date.toordinal`); subtracting one
  models `timedelta(days=1)`, and `(a - b).days == 1` becomes `a - b = 1`.
* The SQL query `SELECT DISTINCT entry_date FROM daily_entries ORDER BY
  entry_date DESC` is embedded as a `List ℤ` parameter that is strictly
  decreasing (`List.Chain' (· > ·)`), which also encodes distinctness.
* `date.today()` is an explicit `today : ℤ` parameter.
* Database writes (the `user_stats` snapshot written by `calculate_streak`,
  the `user_badges` inserts of `check_badges`, the deletes/updates of
  `cleanup_duplicate_badges`) are modelled by returning the new contents of
  the affected tables; reads are modelled as explicit arguments.
-/

namespace StudySync

open scoped List

/-- The current-streak walk of `calculate_streak` (src/app.py lines 273-286):
for each entry date (descending), if it equals the check date or the day
before it the streak is extended (moving the check date down when the entry
is strictly older); an entry more than one day before the check date stops
the scan; any other entry (a future date) is skipped. -/
def calcCurrentGo (check : ℤ) (streak : ℕ) : List ℤ → ℕ
  | [] => streak
  | d :: ds =>
    if d = check ∨ d = check - 1 then
      if d = check then calcCurrentGo check (streak + 1) ds
      else calcCurrentGo d (streak + 1) ds
    else if d < check - 1 then streak
    else calcCurrentGo check streak ds

/-- The longest-streak scan of `calculate_streak` (src/app.py lines 288-298):
a pairwise pass over the descending date list; a run extends while
consecutive dates differ by exactly one day; the final `max` accounts for
the last run. -/
def longestGo (longest cur : ℕ) : List ℤ → ℕ
  | [] => max longest cur
  | [_] => max longest cur
  | a :: b :: l =>
    if a - b = 1 then longestGo longest (cur + 1) (b :: l)
    else longestGo (max longest cur) 1 (b :: l)

/-- `calculate_streak` (src/app.py lines 260-314) on the distinct descending
entry dates: empty input short-circuits to `(0, 0)`; otherwise the pair is
(current streak walk anchored at today, longest pairwise run scan).  The
`user_stats` snapshot write is a side effect on a cache table and carries no
information beyond the returned pair, so it is not modelled. -/
def calculate_streak (today : ℤ) (dates : List ℤ) : ℕ × ℕ :=
  if dates = [] then (0, 0)
  else (calcCurrentGo today 0 dates, longestGo 0 1 dates)

/-- The daily-log-streak walk coded inline in `check_badges` (src/app.py
lines 337-346): structurally it increments the streak whenever the entry
equals the check date or the day before, and moves the check date down
whenever the entry is strictly older. -/
def dailyLogGo (check : ℤ) (streak : ℕ) : List ℤ → ℕ
  | [] => streak
  | d :: ds =>
    if d = check ∨ d = check - 1 then
      dailyLogGo (if d < check then d else check) (streak + 1) ds
    else if d < check - 1 then streak
    else dailyLogGo check streak ds

/-- The `daily_log_streak` value computed by `check_badges` (src/app.py
lines 334-346): `0` for an empty history, otherwise the walk anchored at
today. -/
def daily_log_streak (today : ℤ) (dates : List ℤ) : ℕ :=
  if dates = [] then 0 else dailyLogGo today 0 dates

/-- Length of the maximal consecutive run (consecutive descending dates
differing by exactly one day) starting at the head of the list.  Used to
characterise the streak walks. -/
def mrun : List ℤ → ℕ
  | [] => 0
  | [_] => 1
  | a :: b :: l => if a - b = 1 then mrun (b :: l) + 1 else 1

/-- The maximum, over all positions of the list, of the consecutive run
starting there.  Used to characterise the longest-streak scan. -/
def maxRun : List ℤ → ℕ
  | [] => 0
  | a :: l => max (mrun (a :: l)) (maxRun l)

/-- What remains of the list after the consecutive run starting at its
head. -/
def afterRun : List ℤ → List ℤ
  | [] => []
  | [_] => []
  | a :: b :: l => if a - b = 1 then afterRun (b :: l) else b :: l

/-- The consecutive run starting at the head of the list, as a prefix
segment. -/
def runSeg : List ℤ → List ℤ
  | [] => []
  | [a] => [a]
  | a :: b :: l => if a - b = 1 then a :: runSeg (b :: l) else [a]

/-- The value the anchored current-streak walk computes on a strictly
decreasing date list: skip future dates; if the most recent remaining date
is today or yesterday, the streak is the consecutive run starting there,
otherwise it is `0`. -/
def anchoredRun (today : ℤ) (dates : List ℤ) : ℕ :=
  match dates.dropWhile (fun d => today < d) with
  | [] => 0
  | d :: ds => if d = today ∨ d = today - 1 then mrun (d :: ds) else 0

/- ### Walk equivalence (claim C10) -/

theorem dailyLogGo_eq_calcCurrentGo (l : List ℤ) :
    ∀ check streak, dailyLogGo check streak l = calcCurrentGo check streak l := by
  induction l with
  | nil => intro _ _; rfl
  | cons d ds ih =>
    intro check streak
    simp only [dailyLogGo, calcCurrentGo]
    by_cases h1 : d = check ∨ d = check - 1
    · rw [if_pos h1, if_pos h1]
      by_cases h2 : d = check
      · rw [if_pos h2, if_neg (by omega : ¬ d < check), ih]
      · have hd : d = check - 1 := h1.resolve_left h2
        rw [if_neg h2, if_pos (by omega : d < check), ih]
    · rw [if_neg h1, if_neg h1]
      by_cases h3 : d < check - 1
      · rw [if_pos h3, if_pos h3]
      · rw [if_neg h3, if_neg h3, ih]

theorem daily_log_eq_current (today : ℤ) (dates : List ℤ) :
    daily_log_streak today dates = (calculate_streak today dates).1 := by
  by_cases h : dates = []
  · subst h; rfl
  · simp only [daily_log_streak, calculate_streak, if_neg h]
    exact dailyLogGo_eq_calcCurrentGo dates today 0

/-- Claim C10: the daily-log-streak walk coded inline in `check_badges` and
the current-streak walk of `calculate_streak` are equivalent functions: on
every date list and every value of today they return the same number. -/
theorem C10_walks_equivalent (today : ℤ) (dates : List ℤ) :
    daily_log_streak today dates = (calculate_streak today dates).1 :=
  daily_log_eq_current today dates

/- ### Empty input (claim C8) -/

/-- Claim C8: for the empty set of activity dates the Streak Calculator
returns `(0, 0)`; empty history is not an error. -/
theorem C8_empty_history (today : ℤ) : calculate_streak today [] = (0, 0) := rfl

/- ### Stale most recent entry (claim C1) -/

/-- Claim C1 counterexample: with today = 10 and a single activity date 8
(strictly more than one day before today), the consecutive run ending at
that most recent date has length 1, yet the current streak returned by
`calculate_streak` is 0 — not the length of that run as the claim states. -/
theorem C1_counterexample :
    (calculate_streak 10 [8]).1 = 0 ∧ mrun [8] = 1 := by
  constructor <;> rfl

/-- Claim C1 (amended): for every non-empty strictly decreasing set of
activity dates whose most recent date is strictly more than one day before
today, the current streak returned by the Streak Calculator is 0 — the
stale run does not count. -/
theorem C1_amended (today d : ℤ) (ds : List ℤ)
    (_hsort : (d :: ds).Chain' (· > ·)) (hstale : d < today - 1) :
    (calculate_streak today (d :: ds)).1 = 0 := by
  simp only [calculate_streak, if_neg (List.cons_ne_nil d ds)]
  show calcCurrentGo today 0 (d :: ds) = 0
  simp only [calcCurrentGo]
  rw [if_neg (by omega : ¬ (d = today ∨ d = today - 1)), if_pos hstale]

theorem C1_amended_witness :
    (5 : ℤ) < 20 - 1 ∧ (calculate_streak 20 [5, 4]).1 = 0 :=
  ⟨by decide, C1_amended 20 5 [4] (by simp) (by decide)⟩

/- ### Run-length characterisation of the longest-streak scan -/

theorem mrun_pos : ∀ l : List ℤ, l ≠ [] → 1 ≤ mrun l := by
  intro l
  cases l with
  | nil => intro h; exact absurd rfl h
  | cons a l =>
    intro _
    cases l with
    | nil => exact le_refl 1
    | cons b l' =>
      simp only [mrun]
      by_cases h : a - b = 1
      · rw [if_pos h]; omega
      · rw [if_neg h]

theorem mrun_le_length : ∀ l : List ℤ, mrun l ≤ l.length := by
  intro l
  induction l with
  | nil => exact Nat.zero_le _
  | cons a l ih =>
    cases l with
    | nil => simp [mrun]
    | cons b l' =>
      simp only [mrun, List.length_cons]
      by_cases h : a - b = 1
      · rw [if_pos h]
        have := ih
        simp only [List.length_cons] at this
        omega
      · rw [if_neg h]; omega

theorem mrun_le_maxRun (a : ℤ) (l : List ℤ) : mrun (a :: l) ≤ maxRun (a :: l) := by
  simp only [maxRun]
  exact le_max_left _ _

theorem maxRun_append_le : ∀ pre l : List ℤ, maxRun l ≤ maxRun (pre ++ l) := by
  intro pre l
  induction pre with
  | nil => simp
  | cons a pre ih =>
    calc maxRun l ≤ maxRun (pre ++ l) := ih
      _ ≤ max (mrun (a :: (pre ++ l))) (maxRun (pre ++ l)) := le_max_right _ _
      _ = maxRun ((a :: pre) ++ l) := rfl

theorem maxRun_afterRun : ∀ l : List ℤ, l ≠ [] →
    max (mrun l) (maxRun (afterRun l)) = maxRun l := by
  intro l
  induction l with
  | nil => intro h; exact absurd rfl h
  | cons a l ih =>
    intro _
    cases l with
    | nil => rfl
    | cons b l' =>
      by_cases h : a - b = 1
      · have ih' := ih (List.cons_ne_nil b l')
        simp only [mrun, afterRun, maxRun, if_pos h] at ih' ⊢
        rw [← ih', ← Nat.max_assoc, max_eq_left (Nat.le_succ _)]
      · simp only [mrun, afterRun, maxRun, if_neg h]

theorem longestGo_eq : ∀ (ds : List ℤ) (d : ℤ) (L k : ℕ),
    longestGo L (k + 1) (d :: ds) =
      max L (max (k + mrun (d :: ds)) (maxRun (afterRun (d :: ds)))) := by
  intro ds
  induction ds with
  | nil =>
    intro d L k
    simp only [longestGo, mrun, afterRun, maxRun]
    rw [max_eq_left (Nat.zero_le _)]
  | cons e es ih =>
    intro d L k
    by_cases h : d - e = 1
    · simp only [longestGo, mrun, afterRun, if_pos h]
      rw [ih e L (k + 1), show k + 1 + mrun (e :: es) = k + (mrun (e :: es) + 1) by omega]
    · simp only [longestGo, mrun, afterRun, if_neg h]
      have h2 := ih e (max L (k + 1)) 0
      simp only [Nat.zero_add] at h2
      rw [h2, maxRun_afterRun (e :: es) (List.cons_ne_nil e es), Nat.max_assoc]

theorem calculate_longest (today : ℤ) (l : List ℤ) (hne : l ≠ []) :
    (calculate_streak today l).2 = maxRun l := by
  cases l with
  | nil => exact absurd rfl hne
  | cons d ds =>
    simp only [calculate_streak, if_neg (List.cons_ne_nil d ds)]
    show longestGo 0 1 (d :: ds) = maxRun (d :: ds)
    have h := longestGo_eq ds d 0 0
    simp only [Nat.zero_add] at h
    rw [h, max_eq_right (Nat.zero_le _)]
    exact maxRun_afterRun (d :: ds) (List.cons_ne_nil d ds)

theorem runSeg_append_afterRun : ∀ l : List ℤ, runSeg l ++ afterRun l = l := by
  intro l
  induction l with
  | nil => rfl
  | cons a l ih =>
    cases l with
    | nil => rfl
    | cons b l' =>
      simp only [runSeg, afterRun]
      by_cases h : a - b = 1
      · rw [if_pos h, if_pos h, List.cons_append, ih]
      · rw [if_neg h, if_neg h]; rfl

theorem runSeg_length : ∀ l : List ℤ, (runSeg l).length = mrun l := by
  intro l
  induction l with
  | nil => rfl
  | cons a l ih =>
    cases l with
    | nil => rfl
    | cons b l' =>
      simp only [runSeg, mrun]
      by_cases h : a - b = 1
      · rw [if_pos h, if_pos h, List.length_cons, ih]
      · rw [if_neg h, if_neg h]; rfl

theorem runSeg_cons_ex (a : ℤ) (l : List ℤ) : ∃ t, runSeg (a :: l) = a :: t := by
  cases l with
  | nil => exact ⟨[], rfl⟩
  | cons b l' =>
    simp only [runSeg]
    by_cases h : a - b = 1
    · rw [if_pos h]; exact ⟨runSeg (b :: l'), rfl⟩
    · rw [if_neg h]; exact ⟨[], rfl⟩

theorem runSeg_chain : ∀ l : List ℤ, (runSeg l).Chain' (fun x y => x - y = 1) := by
  intro l
  induction l with
  | nil => exact List.chain'_nil
  | cons a l ih =>
    cases l with
    | nil => exact List.chain'_singleton a
    | cons b l' =>
      simp only [runSeg]
      by_cases h : a - b = 1
      · rw [if_pos h]
        obtain ⟨t, ht⟩ := runSeg_cons_ex b l'
        rw [ht]
        rw [ht] at ih
        exact List.chain'_cons.mpr ⟨h, ih⟩
      · rw [if_neg h]; exact List.chain'_singleton a

theorem chain_length_le_mrun : ∀ (r post : List ℤ), r ≠ [] →
    r.Chain' (fun x y => x - y = 1) → r.length ≤ mrun (r ++ post) := by
  intro r
  induction r with
  | nil => intro post h; exact absurd rfl h
  | cons a r ih =>
    intro post _ hchain
    cases r with
    | nil => simpa using mrun_pos (a :: post) (List.cons_ne_nil a post)
    | cons b r' =>
      rw [List.chain'_cons] at hchain
      obtain ⟨hab, hch⟩ := hchain
      have hih := ih post (List.cons_ne_nil b r') hch
      simp only [List.cons_append] at hih ⊢
      simp only [mrun, if_pos hab, List.length_cons] at *
      omega

theorem maxRun_exists : ∀ l : List ℤ, l ≠ [] →
    ∃ r pre post, r ≠ [] ∧ l = pre ++ r ++ post ∧
      r.Chain' (fun x y => x - y = 1) ∧ r.length = maxRun l := by
  intro l
  induction l with
  | nil => intro h; exact absurd rfl h
  | cons a l ih =>
    intro _
    rcases le_total (maxRun l) (mrun (a :: l)) with h | h
    · refine ⟨runSeg (a :: l), [], afterRun (a :: l), ?_, ?_, runSeg_chain _, ?_⟩
      · obtain ⟨t, ht⟩ := runSeg_cons_ex a l
        rw [ht]; exact List.cons_ne_nil _ _
      · rw [List.nil_append, runSeg_append_afterRun]
      · rw [runSeg_length]
        show mrun (a :: l) = maxRun (a :: l)
        simp only [maxRun]
        rw [max_eq_left h]
    · have hl : l ≠ [] := by
        intro hnil
        subst hnil
        simp only [maxRun, mrun] at h
        omega
      obtain ⟨r, pre, post, hr, heq, hch, hlen⟩ := ih hl
      refine ⟨r, a :: pre, post, hr, ?_, hch, ?_⟩
      · rw [heq]; simp
      · rw [hlen]
        show maxRun l = maxRun (a :: l)
        simp only [maxRun]
        rw [max_eq_right h]

theorem run_le_maxRun (l r pre post : List ℤ) (heq : l = pre ++ r ++ post)
    (hch : r.Chain' (fun x y => x - y = 1)) : r.length ≤ maxRun l := by
  cases r with
  | nil => simp
  | cons b r' =>
    subst heq
    calc (b :: r').length ≤ mrun ((b :: r') ++ post) :=
          chain_length_le_mrun (b :: r') post (List.cons_ne_nil _ _) hch
      _ = mrun (b :: (r' ++ post)) := by rw [List.cons_append]
      _ ≤ maxRun (b :: (r' ++ post)) := mrun_le_maxRun b (r' ++ post)
      _ = maxRun ((b :: r') ++ post) := by rw [List.cons_append]
      _ ≤ maxRun (pre ++ ((b :: r') ++ post)) := maxRun_append_le pre _
      _ = maxRun (pre ++ (b :: r') ++ post) := by rw [List.append_assoc]

/- ### Longest streak is the maximum run length (claim C6) -/

/-- Claim C6: for every non-empty strictly decreasing date list, the longest
streak returned by `calculate_streak` equals the maximum length over the
whole history of a run of dates in which consecutive (descending) dates
differ by exactly one day: some such run has exactly that length, and no
such run is longer (so a single isolated date counts as a run of length 1).
In particular the dates {2024-01-01, 2024-01-02, 2024-01-03} (ordinals
738886-738888) yield longest = 3, and {2024-01-01, 2024-01-03} yield
longest = 1. -/
theorem C6_longest_is_max_run (today : ℤ) (l : List ℤ) (hne : l ≠ [])
    (_hsort : l.Chain' (· > ·)) :
    (∃ r pre post, r ≠ [] ∧ l = pre ++ r ++ post ∧
        r.Chain' (fun x y => x - y = 1) ∧ r.length = (calculate_streak today l).2) ∧
    (∀ r pre post, l = pre ++ r ++ post → r.Chain' (fun x y => x - y = 1) →
        r.length ≤ (calculate_streak today l).2) ∧
    (calculate_streak 738888 [738888, 738887, 738886]).2 = 3 ∧
    (calculate_streak 738888 [738888, 738886]).2 = 1 := by
  have h2 : (calculate_streak today l).2 = maxRun l := calculate_longest today l hne
  refine ⟨?_, ?_, by decide, by decide⟩
  · obtain ⟨r, pre, post, hr, heq, hch, hlen⟩ := maxRun_exists l hne
    exact ⟨r, pre, post, hr, heq, hch, by rw [h2, hlen]⟩
  · intro r pre post heq hch
    rw [h2]
    exact run_le_maxRun l r pre post heq hch

theorem C6_witness :
    ([3, 2] : List ℤ) ≠ [] ∧ ([3, 2] : List ℤ).Chain' (· > ·) ∧
    ((∃ r pre post, r ≠ [] ∧ ([3, 2] : List ℤ) = pre ++ r ++ post ∧
        r.Chain' (fun x y => x - y = 1) ∧ r.length = (calculate_streak 3 [3, 2]).2) ∧
     (∀ r pre post, ([3, 2] : List ℤ) = pre ++ r ++ post →
        r.Chain' (fun x y => x - y = 1) → r.length ≤ (calculate_streak 3 [3, 2]).2) ∧
     (calculate_streak 738888 [738888, 738887, 738886]).2 = 3 ∧
     (calculate_streak 738888 [738888, 738886]).2 = 1) :=
  ⟨by simp, by norm_num [List.chain'_cons], C6_longest_is_max_run 3 [3, 2] (by simp)
    (by norm_num [List.chain'_cons])⟩

/- ### Characterisation of the current-streak walk -/

theorem dropWhile_head_not {p : ℤ → Bool} : ∀ (l : List ℤ) (d : ℤ) (ds : List ℤ),
    l.dropWhile p = d :: ds → p d = false := by
  intro l
  induction l with
  | nil => intro d ds h; simp at h
  | cons a l ih =>
    intro d ds h
    rw [List.dropWhile_cons] at h
    by_cases hp : p a
    · rw [if_pos hp] at h
      exact ih d ds h
    · rw [if_neg hp] at h
      obtain ⟨h1, _⟩ := List.cons.injEq a l d ds ▸ h
      rw [← h1]
      exact Bool.of_not_eq_true hp

theorem calcCurrentGo_skip (check : ℤ) (acc : ℕ) : ∀ l : List ℤ,
    calcCurrentGo check acc l = calcCurrentGo check acc (l.dropWhile (fun d => check < d)) := by
  intro l
  induction l with
  | nil => rfl
  | cons d ds ih =>
    rw [List.dropWhile_cons]
    by_cases h : check < d
    · rw [if_pos (by simpa using h)]
      simp only [calcCurrentGo]
      rw [if_neg (by omega : ¬ (d = check ∨ d = check - 1)),
        if_neg (by omega : ¬ d < check - 1)]
      exact ih
    · rw [if_neg (by simpa using h)]

theorem mrun_walk : ∀ (ds : List ℤ) (d : ℤ) (acc : ℕ),
    (d :: ds).Chain' (· > ·) → calcCurrentGo d (acc + 1) ds = acc + mrun (d :: ds) := by
  intro ds
  induction ds with
  | nil => intro d acc _; simp [calcCurrentGo, mrun]
  | cons e es ih =>
    intro d acc hch
    rw [List.chain'_cons] at hch
    obtain ⟨hde, hch2⟩ := hch
    by_cases h : d - e = 1
    · simp only [calcCurrentGo, mrun, if_pos h]
      rw [if_pos (by omega : e = d ∨ e = d - 1), if_neg (by omega : ¬ e = d),
        ih e (acc + 1) hch2]
      omega
    · simp only [calcCurrentGo, mrun, if_neg h]
      rw [if_neg (by omega : ¬ (e = d ∨ e = d - 1)), if_pos (by omega : e < d - 1)]

theorem anchoredRun_nil (today : ℤ) (l : List ℤ)
    (hdrop : l.dropWhile (fun x => today < x) = []) :
    anchoredRun today l = 0 := by
  unfold anchoredRun
  rw [hdrop]

theorem anchoredRun_cons (today d : ℤ) (ds l : List ℤ)
    (hdrop : l.dropWhile (fun x => today < x) = d :: ds) :
    anchoredRun today l = if d = today ∨ d = today - 1 then mrun (d :: ds) else 0 := by
  unfold anchoredRun
  rw [hdrop]

/-- On a strictly decreasing date list the current-streak component of
`calculate_streak` is exactly `anchoredRun`: skip future dates, and count
the maximal consecutive run starting at the most recent remaining date iff
that date is today or yesterday. -/
theorem calculate_current_eq_anchoredRun (today : ℤ) (l : List ℤ)
    (hsort : l.Chain' (· > ·)) :
    (calculate_streak today l).1 = anchoredRun today l := by
  cases l with
  | nil => rfl
  | cons a as =>
    simp only [calculate_streak, if_neg (List.cons_ne_nil a as)]
    show calcCurrentGo today 0 (a :: as) = anchoredRun today (a :: as)
    rw [calcCurrentGo_skip today 0 (a :: as)]
    have hsuffix : (a :: as).dropWhile (fun d => today < d) <:+ (a :: as) :=
      List.dropWhile_suffix _
    have hsub : ((a :: as).dropWhile (fun d => today < d)).Chain' (· > ·) :=
      hsort.suffix hsuffix
    cases hdrop : (a :: as).dropWhile (fun d => today < d) with
    | nil => rw [anchoredRun_nil today (a :: as) hdrop]; rfl
    | cons d ds =>
      rw [hdrop] at hsub
      rw [anchoredRun_cons today d ds (a :: as) hdrop]
      by_cases hc : d = today ∨ d = today - 1
      · rw [if_pos hc]
        simp only [calcCurrentGo]
        rw [if_pos hc]
        rcases Classical.em (d = today) with he | he
        · rw [if_pos he]
          rw [he]
          simpa using mrun_walk ds today 0 (he ▸ hsub)
        · rw [if_neg he]
          simpa using mrun_walk ds d 0 hsub
      · have hdle : ¬ today < d := by
          simpa using dropWhile_head_not (a :: as) d ds hdrop
        rw [if_neg hc]
        simp only [calcCurrentGo]
        rw [if_neg hc, if_pos (by omega : d < today - 1)]

theorem anchoredRun_le_maxRun (today : ℤ) (l : List ℤ) :
    anchoredRun today l ≤ maxRun l := by
  cases hdrop : l.dropWhile (fun d => today < d) with
  | nil => rw [anchoredRun_nil today l hdrop]; exact Nat.zero_le _
  | cons d ds =>
    rw [anchoredRun_cons today d ds l hdrop]
    by_cases hc : d = today ∨ d = today - 1
    · rw [if_pos hc]
      have h1 : mrun (d :: ds) ≤ maxRun (d :: ds) := mrun_le_maxRun d ds
      have h2 : maxRun (d :: ds) ≤ maxRun l := by
        have hsplit := List.takeWhile_append_dropWhile (p := fun d => today < d) (l := l)
        rw [hdrop] at hsplit
        calc maxRun (d :: ds)
            ≤ maxRun (l.takeWhile (fun d => today < d) ++ (d :: ds)) :=
              maxRun_append_le _ _
          _ = maxRun l := by rw [hsplit]
      omega
    · rw [if_neg hc]
      exact Nat.zero_le _

theorem anchoredRun_le_length (today : ℤ) (l : List ℤ) :
    anchoredRun today l ≤ l.length := by
  cases hdrop : l.dropWhile (fun d => today < d) with
  | nil => rw [anchoredRun_nil today l hdrop]; exact Nat.zero_le _
  | cons d ds =>
    rw [anchoredRun_cons today d ds l hdrop]
    have hsplit := List.takeWhile_append_dropWhile (p := fun d => today < d) (l := l)
    rw [hdrop] at hsplit
    have hlen : (d :: ds).length ≤ l.length := by
      rw [← hsplit, List.length_append]
      omega
    by_cases hc : d = today ∨ d = today - 1
    · rw [if_pos hc]
      exact le_trans (mrun_le_length (d :: ds)) hlen
    · rw [if_neg hc]
      exact Nat.zero_le _

/- ### Streak invariants (claim C2) -/

/-- Claim C2: for every strictly decreasing set of activity dates and every
value of today, the pair returned by `calculate_streak` satisfies
longest ≥ current ≥ 0 and current is at most the number of distinct
activity dates. -/
theorem C2_streak_invariants (today : ℤ) (dates : List ℤ)
    (hsort : dates.Chain' (· > ·)) :
    0 ≤ (calculate_streak today dates).1 ∧
    (calculate_streak today dates).1 ≤ (calculate_streak today dates).2 ∧
    (calculate_streak today dates).1 ≤ dates.length := by
  refine ⟨Nat.zero_le _, ?_, ?_⟩
  · rw [calculate_current_eq_anchoredRun today dates hsort]
    cases dates with
    | nil => exact Nat.zero_le _
    | cons a as =>
      rw [calculate_longest today (a :: as) (List.cons_ne_nil a as)]
      exact anchoredRun_le_maxRun today (a :: as)
  · rw [calculate_current_eq_anchoredRun today dates hsort]
    exact anchoredRun_le_length today dates

theorem C2_witness :
    ([4, 3, 1] : List ℤ).Chain' (· > ·) ∧
    (0 ≤ (calculate_streak 4 [4, 3, 1]).1 ∧
     (calculate_streak 4 [4, 3, 1]).1 ≤ (calculate_streak 4 [4, 3, 1]).2 ∧
     (calculate_streak 4 [4, 3, 1]).1 ≤ ([4, 3, 1] : List ℤ).length) :=
  ⟨by norm_num [List.chain'_cons], C2_streak_invariants 4 [4, 3, 1]
    (by norm_num [List.chain'_cons])⟩

/- ### Milestone evaluator (`check_badges`, src/app.py lines 316-383) -/

/-- A row of the `badges` table: id (AUTOINCREMENT primary key), display
name, milestone_type and milestone_value. -/
structure Badge where
  id : ℤ
  name : String
  milestone_type : String
  milestone_value : ℤ
deriving DecidableEq

/-- The `unlocked_badge` if/elif chain of `check_badges` (src/app.py lines
362-372), deciding whether one badge's milestone rule is met by the current
counters. -/
def satisfiesMilestone (total_exercises : ℤ) (current_streak : ℕ)
    (subject_counts : List ℤ) (dls : ℕ) (b : Badge) : Bool :=
  if b.milestone_type = "exercise_count" ∧ b.milestone_value ≤ total_exercises then true
  else if b.milestone_type = "streak_days" ∧ b.milestone_value ≤ (current_streak : ℤ) then true
  else if b.milestone_type = "subject_exercise_count" then
    subject_counts.any (fun c => b.milestone_value ≤ c)
  else if b.milestone_type = "daily_log_streak" ∧ b.milestone_value ≤ (dls : ℤ) then true
  else false

/-- The badge loop of `check_badges` (src/app.py lines 358-378): already
unlocked badges (per the snapshot read before the loop) are skipped;
otherwise a satisfied badge is appended to the newly-unlocked list and its
id is inserted into `user_badges`.  Returns (newly unlocked rows, ids newly
inserted). -/
def checkBadgesGo (sat : Badge → Bool) (unlocked : List ℤ) :
    List Badge → List Badge × List ℤ
  | [] => ([], [])
  | b :: bs =>
    if b.id ∈ unlocked then checkBadgesGo sat unlocked bs
    else if sat b then
      (b :: (checkBadgesGo sat unlocked bs).1, b.id :: (checkBadgesGo sat unlocked bs).2)
    else checkBadgesGo sat unlocked bs

/-- `check_badges` (src/app.py lines 316-383).  Inputs model the database
reads: total exercise count, per-subject exercise counts (the values of the
GROUP BY query), the distinct descending entry dates, the badge definition
table, and the current contents of `user_badges`.  The current streak is
recomputed via `calculate_streak` and the daily-log streak via the inline
walk, exactly as in the code.  Returns (newly unlocked badge rows, contents
of `user_badges` after the run). -/
def check_badges (today total_exercises : ℤ) (subject_counts dates : List ℤ)
    (badges : List Badge) (unlocked : List ℤ) : List Badge × List ℤ :=
  let sat := satisfiesMilestone total_exercises (calculate_streak today dates).1
    subject_counts (daily_log_streak today dates)
  let r := checkBadgesGo sat unlocked badges
  (r.1, unlocked ++ r.2)

theorem checkBadgesGo_mem_fst (sat : Badge → Bool) (unlocked : List ℤ) :
    ∀ (bs : List Badge) (b : Badge), b ∈ (checkBadgesGo sat unlocked bs).1 →
      sat b = true := by
  intro bs
  induction bs with
  | nil => intro b h; simp [checkBadgesGo] at h
  | cons a bs ih =>
    intro b h
    simp only [checkBadgesGo] at h
    by_cases h1 : a.id ∈ unlocked
    · rw [if_pos h1] at h
      exact ih b h
    · rw [if_neg h1] at h
      by_cases h2 : sat a = true
      · rw [if_pos h2] at h
        rcases List.mem_cons.mp h with rfl | h3
        · exact h2
        · exact ih b h3
      · rw [if_neg h2] at h
        exact ih b h

theorem checkBadgesGo_mem_iff (sat : Badge → Bool) (unlocked : List ℤ) :
    ∀ (bs : List Badge) (b : Badge), b ∈ bs → b.id ∉ unlocked →
      (b ∈ (checkBadgesGo sat unlocked bs).1 ↔ sat b = true) := by
  intro bs
  induction bs with
  | nil => intro b h _; simp at h
  | cons a bs ih =>
    intro b hb hnot
    constructor
    · exact checkBadgesGo_mem_fst sat unlocked (a :: bs) b
    · intro hsat
      simp only [checkBadgesGo]
      rcases List.mem_cons.mp hb with rfl | hmem
      · rw [if_neg hnot, if_pos hsat]
        exact List.mem_cons_self _ _
      · by_cases h1 : a.id ∈ unlocked
        · rw [if_pos h1]
          exact (ih b hmem hnot).mpr hsat
        · rw [if_neg h1]
          by_cases h2 : sat a = true
          · rw [if_pos h2]
            exact List.mem_cons_of_mem _ ((ih b hmem hnot).mpr hsat)
          · rw [if_neg h2]
            exact (ih b hmem hnot).mpr hsat

theorem checkBadgesGo_snd (sat : Badge → Bool) (unlocked : List ℤ) :
    ∀ (bs : List Badge) (b : Badge), b ∈ bs → sat b = true →
      b.id ∈ unlocked ∨ b.id ∈ (checkBadgesGo sat unlocked bs).2 := by
  intro bs
  induction bs with
  | nil => intro b h _; simp at h
  | cons a bs ih =>
    intro b hb hsat
    simp only [checkBadgesGo]
    rcases List.mem_cons.mp hb with rfl | hmem
    · by_cases h1 : b.id ∈ unlocked
      · exact Or.inl h1
      · rw [if_neg h1, if_pos hsat]
        exact Or.inr (List.mem_cons_self _ _)
    · rcases ih b hmem hsat with h | h
      · exact Or.inl h
      · by_cases h1 : a.id ∈ unlocked
        · rw [if_pos h1]; exact Or.inr h
        · rw [if_neg h1]
          by_cases h2 : sat a = true
          · rw [if_pos h2]
            exact Or.inr (List.mem_cons_of_mem _ h)
          · rw [if_neg h2]; exact Or.inr h

theorem checkBadgesGo_fst_nil (sat : Badge → Bool) (unlocked : List ℤ) :
    ∀ bs : List Badge, (∀ b ∈ bs, sat b = true → b.id ∈ unlocked) →
      (checkBadgesGo sat unlocked bs).1 = [] := by
  intro bs
  induction bs with
  | nil => intro _; rfl
  | cons a bs ih =>
    intro h
    simp only [checkBadgesGo]
    by_cases h1 : a.id ∈ unlocked
    · rw [if_pos h1]
      exact ih fun b hb => h b (List.mem_cons_of_mem _ hb)
    · have h2 : ¬ sat a = true := fun hsat => h1 (h a (List.mem_cons_self _ _) hsat)
      rw [if_neg h1, if_neg h2]
      exact ih fun b hb => h b (List.mem_cons_of_mem _ hb)

theorem checkBadgesGo_fst_snd (sat : Badge → Bool) (unlocked : List ℤ) :
    ∀ (bs : List Badge) (b : Badge), b ∈ (checkBadgesGo sat unlocked bs).1 →
      b.id ∈ (checkBadgesGo sat unlocked bs).2 := by
  intro bs
  induction bs with
  | nil => intro b h; simp [checkBadgesGo] at h
  | cons a bs ih =>
    intro b h
    simp only [checkBadgesGo] at h ⊢
    by_cases h1 : a.id ∈ unlocked
    · rw [if_pos h1] at h ⊢
      exact ih b h
    · rw [if_neg h1] at h ⊢
      by_cases h2 : sat a = true
      · rw [if_pos h2] at h ⊢
        rcases List.mem_cons.mp h with rfl | h3
        · exact List.mem_cons_self _ _
        · exact List.mem_cons_of_mem _ (ih b h3)
      · rw [if_neg h2] at h ⊢
        exact ih b h

theorem satisfiesMilestone_iff (te : ℤ) (cs : ℕ) (scs : List ℤ) (dls : ℕ) (b : Badge) :
    satisfiesMilestone te cs scs dls b = true ↔
      (b.milestone_type = "exercise_count" ∧ b.milestone_value ≤ te) ∨
      (b.milestone_type = "streak_days" ∧ b.milestone_value ≤ (cs : ℤ)) ∨
      (b.milestone_type = "subject_exercise_count" ∧ ∃ c ∈ scs, b.milestone_value ≤ c) ∨
      (b.milestone_type = "daily_log_streak" ∧ b.milestone_value ≤ (dls : ℤ)) := by
  unfold satisfiesMilestone
  split_ifs with h1 h2 h3 h4
  · exact iff_of_true rfl (Or.inl h1)
  · exact iff_of_true rfl (Or.inr (Or.inl h2))
  · rw [List.any_eq_true]
    constructor
    · intro ⟨c, hc, hle⟩
      exact Or.inr (Or.inr (Or.inl ⟨h3, c, hc, by simpa using hle⟩))
    · rintro (⟨ht, _⟩ | ⟨ht, _⟩ | ⟨_, c, hc, hle⟩ | ⟨ht, _⟩)
      · exact absurd (ht.symm.trans h3) (by decide)
      · exact absurd (ht.symm.trans h3) (by decide)
      · exact ⟨c, hc, by simpa using hle⟩
      · exact absurd (ht.symm.trans h3) (by decide)
  · exact iff_of_true rfl (Or.inr (Or.inr (Or.inr h4)))
  · simp only [Bool.false_eq_true, false_iff]
    rintro (h | h | ⟨ht, _⟩ | h)
    · exact h1 h
    · exact h2 h
    · exact h3 ht
    · exact h4 h

/- ### Milestone dispatch (claim C3) -/

/-- Claim C3 counterexample: with today = 10 and a single logged entry five
days ago, the consecutive-day run of logged entries ending at (a date at or
before) today has length 1, meeting the daily_log_streak threshold 1, yet
`check_badges` unlocks nothing: the walk anchors only at today or yesterday
and treats the stale run as a streak of 0. -/
theorem C3_counterexample :
    (check_badges 10 0 [] [5] [Badge.mk 1 "log" "daily_log_streak" 1] []).1 = [] ∧
    mrun [5] = 1 := by
  constructor <;> rfl

/-- Claim C3 (amended): for every milestone definition not already unlocked,
the Milestone Evaluator marks it satisfied exactly when: kind
exercise_count and total_exercise_count ≥ threshold; kind streak_days and
current_streak ≥ threshold; kind subject_exercise_count and some subject's
per-subject count ≥ threshold; kind daily_log_streak and the
consecutive-day run of logged entries ending at today or the day before
today ≥ threshold (a run whose most recent entry is more than one day old
counts as a streak of 0).  Both streak kinds compare against the anchored
run `anchoredRun`. -/
theorem C3_amended (today te : ℤ) (scs dates : List ℤ) (badges : List Badge)
    (unlocked : List ℤ) (b : Badge) (hsort : dates.Chain' (· > ·))
    (hb : b ∈ badges) (hnot : b.id ∉ unlocked) :
    b ∈ (check_badges today te scs dates badges unlocked).1 ↔
      (b.milestone_type = "exercise_count" ∧ b.milestone_value ≤ te) ∨
      (b.milestone_type = "streak_days" ∧
        b.milestone_value ≤ (anchoredRun today dates : ℤ)) ∨
      (b.milestone_type = "subject_exercise_count" ∧ ∃ c ∈ scs, b.milestone_value ≤ c) ∨
      (b.milestone_type = "daily_log_streak" ∧
        b.milestone_value ≤ (anchoredRun today dates : ℤ)) := by
  have hcs : (calculate_streak today dates).1 = anchoredRun today dates :=
    calculate_current_eq_anchoredRun today dates hsort
  have hdls : daily_log_streak today dates = anchoredRun today dates := by
    rw [daily_log_eq_current, hcs]
  simp only [check_badges]
  rw [checkBadgesGo_mem_iff _ unlocked badges b hb hnot, satisfiesMilestone_iff,
    hcs, hdls]

theorem C3_amended_witness :
    List.Chain' (· > ·) ([] : List ℤ) ∧
    Badge.mk 1 "first" "exercise_count" 1 ∈ [Badge.mk 1 "first" "exercise_count" 1] ∧
    (Badge.mk 1 "first" "exercise_count" 1).id ∉ ([] : List ℤ) ∧
    (Badge.mk 1 "first" "exercise_count" 1 ∈
        (check_badges 0 5 [] [] [Badge.mk 1 "first" "exercise_count" 1] []).1 ↔
      ((Badge.mk 1 "first" "exercise_count" 1).milestone_type = "exercise_count" ∧
        (Badge.mk 1 "first" "exercise_count" 1).milestone_value ≤ 5) ∨
      ((Badge.mk 1 "first" "exercise_count" 1).milestone_type = "streak_days" ∧
        (Badge.mk 1 "first" "exercise_count" 1).milestone_value ≤ (anchoredRun 0 [] : ℤ)) ∨
      ((Badge.mk 1 "first" "exercise_count" 1).milestone_type = "subject_exercise_count" ∧
        ∃ c ∈ ([] : List ℤ), (Badge.mk 1 "first" "exercise_count" 1).milestone_value ≤ c) ∨
      ((Badge.mk 1 "first" "exercise_count" 1).milestone_type = "daily_log_streak" ∧
        (Badge.mk 1 "first" "exercise_count" 1).milestone_value ≤ (anchoredRun 0 [] : ℤ))) :=
  ⟨List.chain'_nil, List.mem_cons_self _ _, by simp,
    C3_amended 0 5 [] [] [Badge.mk 1 "first" "exercise_count" 1] []
      (Badge.mk 1 "first" "exercise_count" 1) List.chain'_nil
      (List.mem_cons_self _ _) (by simp)⟩

/- ### Evaluator idempotence (claim C4) -/

/-- Claim C4: every milestone unlocked by an evaluation is recorded in the
returned ledger, and running the evaluator a second time with unchanged
counters against that ledger unlocks nothing: no milestone is ever returned
as newly unlocked more than once. -/
theorem C4_second_run_empty (today te : ℤ) (scs dates : List ℤ)
    (badges : List Badge) (ub : List ℤ) :
    (∀ b ∈ (check_badges today te scs dates badges ub).1,
        b.id ∈ (check_badges today te scs dates badges ub).2) ∧
    (check_badges today te scs dates badges
        (check_badges today te scs dates badges ub).2).1 = [] := by
  constructor
  · intro b hb
    simp only [check_badges] at hb ⊢
    exact List.mem_append_right _ (checkBadgesGo_fst_snd _ ub badges b hb)
  · simp only [check_badges]
    apply checkBadgesGo_fst_nil
    intro b hb hsat
    rcases checkBadgesGo_snd _ ub badges b hb hsat with h | h
    · exact List.mem_append_left _ h
    · exact List.mem_append_right _ h

/- ### Ledger monotonicity (claim C5) -/

/-- Claim C5: once a milestone id is in the Badge Ledger it remains present
after any subsequent Milestone Evaluator run, whatever the counters are: an
evaluation only ever appends to the ledger. -/
theorem C5_ledger_monotonic (today te : ℤ) (scs dates : List ℤ)
    (badges : List Badge) (ub : List ℤ) (m : ℤ) (h : m ∈ ub) :
    m ∈ (check_badges today te scs dates badges ub).2 := by
  simp only [check_badges]
  exact List.mem_append_left _ h

theorem C5_ledger_monotonic_witness :
    (7 : ℤ) ∈ [(7 : ℤ)] ∧
    (7 : ℤ) ∈ (check_badges 0 0 [] [] [] [(7 : ℤ)]).2 :=
  ⟨List.mem_cons_self _ _, C5_ledger_monotonic 0 0 [] [] [] [7] 7 (List.mem_cons_self _ _)⟩

/- ### Duplicate-badge cleanup (`cleanup_duplicate_badges`, src/app.py
lines 185-230) -/

/-- Python `any(chr(0x0590) <= char <= chr(0x05FF) for char in name)`
(src/app.py line 211): the display name contains a character of the Hebrew
Unicode block. -/
def hasHebrew (name : String) : Bool :=
  name.data.any (fun c => '֐' ≤ c ∧ c ≤ '׿')

/-- The (milestone_type, milestone_value) pair a badge row is grouped by. -/
def badgeKey (b : Badge) : String × ℤ := (b.milestone_type, b.milestone_value)

/-- The rows of the badge table with a given (milestone_type,
milestone_value) key, in table order — the per-group SELECT of
src/app.py lines 202-205. -/
def groupOf (badges : List Badge) (k : String × ℤ) : List Badge :=
  badges.filter (fun b => badgeKey b = k)

/-- The keys produced by `GROUP BY milestone_type, milestone_value HAVING
COUNT(*) > 1` (src/app.py lines 191-194): every key held by more than one
row, each key once. -/
def dupKeys (badges : List Badge) : List (String × ℤ) :=
  ((badges.map badgeKey).dedup).filter (fun k => 1 < (groupOf badges k).length)

/-- The first-Hebrew-badge search of src/app.py lines 208-213: the id of
the first row of the group whose name contains Hebrew characters, if
any. -/
def findHebrew : List Badge → Option ℤ
  | [] => none
  | b :: bs => if hasHebrew b.name then some b.id else findHebrew bs

/-- The surviving badge id for a duplicate group (src/app.py lines
208-217): the first Hebrew-named row's id if one exists, else the first
row's id.  The Python falsiness test `if not hebrew_badge_id` also treats a
found id of 0 as "not found", which is mirrored here. -/
def keeper : List Badge → ℤ
  | [] => 0
  | b :: bs =>
    match findHebrew (b :: bs) with
    | some i => if i = 0 then b.id else i
    | none => b.id

/-- `UPDATE OR IGNORE user_badges SET badge_id = nw WHERE badge_id = old`
on a table whose primary key is badge_id: if rewriting would collide with
an existing row holding `nw`, the update is silently skipped; otherwise the
matching entry (if any) is rewritten. -/
def updateOrIgnore (ub : List ℤ) (old nw : ℤ) : List ℤ :=
  if old ∈ ub ∧ nw ∈ ub ∧ old ≠ nw then ub
  else ub.map (fun x => if x = old then nw else x)

/-- The body of the per-group loop of src/app.py lines 220-227: the kept
badge is skipped; every other row of the group is deleted from the badge
table and its ledger reference is update-or-ignored onto the kept id. -/
def mergeStep (keep : ℤ) (st : List Badge × List ℤ) (b : Badge) :
    List Badge × List ℤ :=
  if b.id = keep then st
  else (st.1.filter (fun r => r.id ≠ b.id), updateOrIgnore st.2 b.id keep)

/-- Processing of one duplicate group (src/app.py lines 198-227): fetch the
group from the current badge table, choose the surviving id, then run the
merge loop over the fetched group. -/
def processGroup (st : List Badge × List ℤ) (k : String × ℤ) :
    List Badge × List ℤ :=
  (groupOf st.1 k).foldl (mergeStep (keeper (groupOf st.1 k))) st

/-- `cleanup_duplicate_badges` (src/app.py lines 185-230) on the badge
table and the `user_badges` ledger: process every duplicated
(milestone_type, milestone_value) key. -/
def cleanup_duplicate_badges (badges : List Badge) (ub : List ℤ) :
    List Badge × List ℤ :=
  (dupKeys badges).foldl processGroup (badges, ub)

/-- Claim C7 counterexample: two definitions share the key
(exercise_count, 1) and both are unlocked.  Cleanup removes definition 2
(keeping the first, id 1), but the unlock record referencing 2 is NOT
repointed to 1 — `UPDATE OR IGNORE` skips it because an unlock record for
id 1 already exists — so the ledger still contains the removed id 2. -/
theorem C7_counterexample :
    (cleanup_duplicate_badges
        [Badge.mk 1 "A" "exercise_count" 1, Badge.mk 2 "B" "exercise_count" 1]
        [1, 2]).1 = [Badge.mk 1 "A" "exercise_count" 1] ∧
    (cleanup_duplicate_badges
        [Badge.mk 1 "A" "exercise_count" 1, Badge.mk 2 "B" "exercise_count" 1]
        [1, 2]).2 = [1, 2] := by
  constructor <;> rfl

/- ### Lemmas about the ledger update -/

theorem list_map_id_of (f : ℤ → ℤ) : ∀ ub : List ℤ,
    (∀ y ∈ ub, f y = y) → ub.map f = ub := by
  intro ub
  induction ub with
  | nil => intro _; rfl
  | cons a l ih =>
    intro h
    simp only [List.map_cons]
    rw [h a (List.mem_cons_self _ _), ih fun y hy => h y (List.mem_cons_of_mem _ hy)]

theorem updateOrIgnore_mem_other (ub : List ℤ) (old nw x : ℤ)
    (hxo : x ≠ old) (hxn : x ≠ nw) :
    x ∈ updateOrIgnore ub old nw ↔ x ∈ ub := by
  unfold updateOrIgnore
  split_ifs with h
  · exact Iff.rfl
  · rw [List.mem_map]
    constructor
    · rintro ⟨y, hy, hxy⟩
      by_cases hyo : y = old
      · rw [if_pos hyo] at hxy
        exact absurd hxy.symm hxn
      · rw [if_neg hyo] at hxy
        rwa [← hxy]
    · intro hx
      exact ⟨x, hx, by rw [if_neg hxo]⟩

theorem updateOrIgnore_mem_new (ub : List ℤ) (old nw : ℤ) :
    nw ∈ updateOrIgnore ub old nw ↔ old ∈ ub ∨ nw ∈ ub := by
  unfold updateOrIgnore
  split_ifs with h
  · exact iff_of_true h.2.1 (Or.inr h.2.1)
  · rw [List.mem_map]
    constructor
    · rintro ⟨y, hy, hxy⟩
      by_cases hyo : y = old
      · subst hyo; exact Or.inl hy
      · rw [if_neg hyo] at hxy
        exact Or.inr (hxy ▸ hy)
    · rintro (h1 | h1)
      · exact ⟨old, h1, by rw [if_pos rfl]⟩
      · exact ⟨nw, h1, by split_ifs <;> rfl⟩

theorem updateOrIgnore_of_not_mem (ub : List ℤ) (old nw : ℤ) (h : old ∉ ub) :
    updateOrIgnore ub old nw = ub := by
  unfold updateOrIgnore
  rw [if_neg (by tauto)]
  refine list_map_id_of _ ub fun y hy => if_neg fun hyo => h ?_
  rw [← hyo]
  exact hy

theorem updateOrIgnore_of_new_mem (ub : List ℤ) (old nw : ℤ) (h : nw ∈ ub) :
    updateOrIgnore ub old nw = ub := by
  unfold updateOrIgnore
  split_ifs with hc
  · rfl
  · apply list_map_id_of
    intro y hy
    by_cases hyo : y = old
    · rw [if_pos hyo]
      have hom : old ∈ ub := by rw [← hyo]; exact hy
      have hon : old = nw := by
        by_contra hne
        exact hc ⟨hom, h, hne⟩
      rw [← hon, hyo]
    · rw [if_neg hyo]

theorem updateOrIgnore_old_not_mem (ub : List ℤ) (old nw : ℤ)
    (hn : nw ∉ ub) (hne : old ≠ nw) : old ∉ updateOrIgnore ub old nw := by
  unfold updateOrIgnore
  rw [if_neg (by tauto), List.mem_map]
  rintro ⟨y, hy, hxy⟩
  by_cases hyo : y = old
  · rw [if_pos hyo] at hxy
    exact hne hxy.symm
  · rw [if_neg hyo] at hxy
    exact hyo hxy

/- ### Decomposing the per-group merge loop -/

/-- The badge-table component of `mergeStep`. -/
def tbStep (keep : ℤ) (tb : List Badge) (b : Badge) : List Badge :=
  if b.id = keep then tb else tb.filter (fun r => r.id ≠ b.id)

/-- The ledger component of `mergeStep`. -/
def ubStep (keep : ℤ) (ub : List ℤ) (b : Badge) : List ℤ :=
  if b.id = keep then ub else updateOrIgnore ub b.id keep

theorem mergeStep_eq (keep : ℤ) (st : List Badge × List ℤ) (b : Badge) :
    mergeStep keep st b = (tbStep keep st.1 b, ubStep keep st.2 b) := by
  unfold mergeStep tbStep ubStep
  split_ifs with h
  · rfl
  · rfl

theorem mergeFold_fst (keep : ℤ) : ∀ (g : List Badge) (st : List Badge × List ℤ),
    (g.foldl (mergeStep keep) st).1 = g.foldl (tbStep keep) st.1 := by
  intro g
  induction g with
  | nil => intro st; rfl
  | cons b g ih =>
    intro st
    simp only [List.foldl_cons, mergeStep_eq]
    exact ih (tbStep keep st.1 b, ubStep keep st.2 b)

theorem mergeFold_snd (keep : ℤ) : ∀ (g : List Badge) (st : List Badge × List ℤ),
    (g.foldl (mergeStep keep) st).2 = g.foldl (ubStep keep) st.2 := by
  intro g
  induction g with
  | nil => intro st; rfl
  | cons b g ih =>
    intro st
    simp only [List.foldl_cons, mergeStep_eq]
    exact ih (tbStep keep st.1 b, ubStep keep st.2 b)

theorem processGroup_fst (st : List Badge × List ℤ) (k : String × ℤ) :
    (processGroup st k).1 =
      (groupOf st.1 k).foldl (tbStep (keeper (groupOf st.1 k))) st.1 := by
  unfold processGroup
  exact mergeFold_fst _ _ st

theorem processGroup_snd (st : List Badge × List ℤ) (k : String × ℤ) :
    (processGroup st k).2 =
      (groupOf st.1 k).foldl (ubStep (keeper (groupOf st.1 k))) st.2 := by
  unfold processGroup
  exact mergeFold_snd _ _ st

theorem tbStep_pos {keep : ℤ} {b : Badge} (tb : List Badge) (hb : b.id = keep) :
    tbStep keep tb b = tb := by
  unfold tbStep
  rw [if_pos hb]

theorem tbStep_neg {keep : ℤ} {b : Badge} (tb : List Badge) (hb : ¬ b.id = keep) :
    tbStep keep tb b = tb.filter (fun r => r.id ≠ b.id) := by
  unfold tbStep
  rw [if_neg hb]

theorem ubStep_pos {keep : ℤ} {b : Badge} (ub : List ℤ) (hb : b.id = keep) :
    ubStep keep ub b = ub := by
  unfold ubStep
  rw [if_pos hb]

theorem ubStep_neg {keep : ℤ} {b : Badge} (ub : List ℤ) (hb : ¬ b.id = keep) :
    ubStep keep ub b = updateOrIgnore ub b.id keep := by
  unfold ubStep
  rw [if_neg hb]

theorem tbFold_filter (keep : ℤ) : ∀ (g tb : List Badge),
    g.foldl (tbStep keep) tb =
      tb.filter (fun r => decide (∀ b ∈ g, b.id ≠ keep → r.id ≠ b.id)) := by
  intro g
  induction g with
  | nil =>
    intro tb
    rw [List.foldl_nil]
    symm
    apply List.filter_eq_self.mpr
    intro r _
    simp
  | cons b g ih =>
    intro tb
    rw [List.foldl_cons]
    by_cases hb : b.id = keep
    · rw [tbStep_pos tb hb, ih tb]
      apply List.filter_congr
      intro r _
      rw [decide_eq_decide, List.forall_mem_cons]
      constructor
      · intro hall
        exact ⟨fun hne _ => absurd hb hne, hall⟩
      · exact fun h => h.2
    · rw [tbStep_neg tb hb, ih (tb.filter (fun r => r.id ≠ b.id)), List.filter_filter]
      apply List.filter_congr
      intro r _
      rw [Bool.and_comm, ← Bool.decide_and, decide_eq_decide, List.forall_mem_cons]
      constructor
      · exact fun h => ⟨fun _ => h.1, h.2⟩
      · exact fun h => ⟨h.1 hb, h.2⟩

theorem ubFold_keep_eq (keep : ℤ) : ∀ (g : List Badge) (ub : List ℤ),
    keep ∈ ub → g.foldl (ubStep keep) ub = ub := by
  intro g
  induction g with
  | nil => intro ub _; rfl
  | cons b g ih =>
    intro ub h
    rw [List.foldl_cons]
    by_cases hb : b.id = keep
    · rw [ubStep_pos ub hb]
      exact ih ub h
    · rw [ubStep_neg ub hb, updateOrIgnore_of_new_mem ub b.id keep h]
      exact ih ub h

theorem ubFold_frame (keep x : ℤ) : ∀ (g : List Badge) (ub : List ℤ),
    x ∉ g.map Badge.id → x ≠ keep →
    (x ∈ g.foldl (ubStep keep) ub ↔ x ∈ ub) := by
  intro g
  induction g with
  | nil => intro ub _ _; exact Iff.rfl
  | cons b g ih =>
    intro ub hxg hxk
    rw [List.map_cons] at hxg
    have hxb : x ≠ b.id := fun h => hxg (h ▸ List.mem_cons_self _ _)
    have hxg' : x ∉ g.map Badge.id := fun h => hxg (List.mem_cons_of_mem _ h)
    rw [List.foldl_cons]
    by_cases hb : b.id = keep
    · rw [ubStep_pos ub hb]
      exact ih ub hxg' hxk
    · rw [ubStep_neg ub hb, ih _ hxg' hxk]
      exact updateOrIgnore_mem_other ub b.id keep x hxb hxk

theorem ubFold_keep_mem (keep : ℤ) : ∀ (g : List Badge) (ub : List ℤ),
    (∃ y ∈ ub, y ∈ g.map Badge.id) → keep ∈ g.foldl (ubStep keep) ub := by
  intro g
  induction g with
  | nil =>
    rintro ub ⟨y, _, hy⟩
    simp at hy
  | cons b g ih =>
    rintro ub ⟨y, hyu, hyg⟩
    rw [List.map_cons] at hyg
    by_cases hkp : keep ∈ ub
    · rw [ubFold_keep_eq keep (b :: g) ub hkp]
      exact hkp
    · rw [List.foldl_cons]
      by_cases hb : b.id = keep
      · rw [ubStep_pos ub hb]
        apply ih
        rcases List.mem_cons.mp hyg with h | h
        · refine absurd ?_ hkp
          rw [← hb, ← h]
          exact hyu
        · exact ⟨y, hyu, h⟩
      · rw [ubStep_neg ub hb]
        by_cases hyb : y = b.id
        · have hk1 : keep ∈ updateOrIgnore ub b.id keep :=
            (updateOrIgnore_mem_new ub b.id keep).mpr (Or.inl (hyb ▸ hyu))
          rw [ubFold_keep_eq keep g _ hk1]
          exact hk1
        · have hyk : y ≠ keep := fun h => hkp (h ▸ hyu)
          apply ih
          refine ⟨y, (updateOrIgnore_mem_other ub b.id keep y hyb hyk).mpr hyu, ?_⟩
          rcases List.mem_cons.mp hyg with h | h
          · exact absurd h hyb
          · exact h

theorem ubFold_repoint (keep x : ℤ) : ∀ (g : List Badge) (ub : List ℤ),
    keep ∉ ub → x ∈ ub → x ∈ g.map Badge.id → x ≠ keep →
    (∀ y ∈ ub, y ∈ g.map Badge.id → y = x) →
    x ∉ g.foldl (ubStep keep) ub ∧ keep ∈ g.foldl (ubStep keep) ub := by
  intro g
  induction g with
  | nil =>
    intro ub _ _ hxg
    simp at hxg
  | cons b g ih =>
    intro ub hkp hxu hxg hxk huniq
    rw [List.map_cons] at hxg
    have huniq' : ∀ y ∈ ub, y ∈ g.map Badge.id → y = x := fun y hyu hyg =>
      huniq y hyu (List.mem_cons_of_mem _ hyg)
    rw [List.foldl_cons]
    by_cases hb : b.id = keep
    · rw [ubStep_pos ub hb]
      have hxg' : x ∈ g.map Badge.id := by
        rcases List.mem_cons.mp hxg with h | h
        · exact absurd (h.trans hb) hxk
        · exact h
      exact ih ub hkp hxu hxg' hxk huniq'
    · rw [ubStep_neg ub hb]
      by_cases hxb : x = b.id
      · have h1 : b.id ∉ updateOrIgnore ub b.id keep :=
          updateOrIgnore_old_not_mem ub b.id keep hkp (hxb ▸ hxk)
        have h2 : keep ∈ updateOrIgnore ub b.id keep :=
          (updateOrIgnore_mem_new ub b.id keep).mpr (Or.inl (hxb ▸ hxu))
        rw [ubFold_keep_eq keep g _ h2]
        exact ⟨hxb ▸ h1, h2⟩
      · have hbub : b.id ∉ ub := fun hmem =>
          hxb ((huniq b.id hmem (List.mem_cons_self _ _)).symm)
        rw [updateOrIgnore_of_not_mem ub b.id keep hbub]
        have hxg' : x ∈ g.map Badge.id := by
          rcases List.mem_cons.mp hxg with h | h
          · exact absurd h hxb
          · exact h
        exact ih ub hkp hxu hxg' hxk huniq'

/- ### Lemmas about the surviving-badge choice -/

theorem findHebrew_mem : ∀ (g : List Badge) (i : ℤ),
    findHebrew g = some i → i ∈ g.map Badge.id := by
  intro g
  induction g with
  | nil => intro i h; simp [findHebrew] at h
  | cons b g ih =>
    intro i h
    rw [findHebrew] at h
    rw [List.map_cons]
    by_cases hb : hasHebrew b.name = true
    · rw [if_pos hb, Option.some.injEq] at h
      rw [← h]
      exact List.mem_cons_self _ _
    · rw [if_neg hb] at h
      exact List.mem_cons_of_mem _ (ih i h)

theorem findHebrew_none : ∀ g : List Badge,
    (∀ b ∈ g, hasHebrew b.name = false) → findHebrew g = none := by
  intro g
  induction g with
  | nil => intro _; rfl
  | cons b g ih =>
    intro h
    rw [findHebrew, if_neg (by simp [h b (List.mem_cons_self _ _)])]
    exact ih fun b' hb' => h b' (List.mem_cons_of_mem _ hb')

theorem findHebrew_first : ∀ (pre : List Badge) (b : Badge) (post : List Badge),
    hasHebrew b.name = true → (∀ p ∈ pre, hasHebrew p.name = false) →
    findHebrew (pre ++ b :: post) = some b.id := by
  intro pre
  induction pre with
  | nil =>
    intro b post hb _
    rw [List.nil_append, findHebrew, if_pos hb]
  | cons p pre ih =>
    intro b post hb hpre
    rw [List.cons_append, findHebrew, if_neg (by simp [hpre p (List.mem_cons_self _ _)])]
    exact ih b post hb fun q hq => hpre q (List.mem_cons_of_mem _ hq)

theorem keeper_of_some : ∀ (g : List Badge) (i : ℤ), findHebrew g = some i → i ≠ 0 →
    keeper g = i := by
  intro g i hfh hi
  cases g with
  | nil => simp [findHebrew] at hfh
  | cons b bs =>
    rw [keeper, hfh]
    show (if i = 0 then b.id else i) = i
    rw [if_neg hi]

theorem keeper_of_none : ∀ (b : Badge) (bs : List Badge),
    findHebrew (b :: bs) = none → keeper (b :: bs) = b.id := by
  intro b bs hfh
  rw [keeper, hfh]

theorem keeper_mem : ∀ g : List Badge, g ≠ [] → keeper g ∈ g.map Badge.id := by
  intro g hg
  cases g with
  | nil => exact absurd rfl hg
  | cons b bs =>
    cases hfh : findHebrew (b :: bs) with
    | none =>
      rw [keeper_of_none b bs hfh, List.map_cons]
      exact List.mem_cons_self _ _
    | some i =>
      rw [keeper, hfh]
      show (if i = 0 then b.id else i) ∈ (b :: bs).map Badge.id
      by_cases hi : i = 0
      · rw [if_pos hi, List.map_cons]
        exact List.mem_cons_self _ _
      · rw [if_neg hi]
        exact findHebrew_mem (b :: bs) i hfh

/- ### Lemmas about groups and the per-key fold -/

theorem groupOf_mem {tb : List Badge} {k : String × ℤ} {r : Badge} :
    r ∈ groupOf tb k ↔ r ∈ tb ∧ badgeKey r = k := by
  unfold groupOf
  rw [List.mem_filter, decide_eq_true_eq]

theorem groupOf_filter (tb : List Badge) (k : String × ℤ) (p : Badge → Bool) :
    groupOf (tb.filter p) k = (groupOf tb k).filter p := by
  unfold groupOf
  exact List.filter_comm _ _ _

theorem groupOf_sublist (tb : List Badge) (k : String × ℤ) : groupOf tb k <+ tb :=
  List.filter_sublist _

theorem ids_nodup_sublist {tb tb' : List Badge} (h : tb <+ tb')
    (hn : (tb'.map Badge.id).Nodup) : (tb.map Badge.id).Nodup :=
  hn.sublist (h.map Badge.id)

theorem id_inj_of_nodup {tb : List Badge} (hn : (tb.map Badge.id).Nodup)
    {a b : Badge} (ha : a ∈ tb) (hb : b ∈ tb) (hab : a.id = b.id) : a = b :=
  List.inj_on_of_nodup_map hn ha hb hab

theorem filter_id_singleton : ∀ (g : List Badge) (kp : ℤ),
    (g.map Badge.id).Nodup → kp ∈ g.map Badge.id →
    ∃ bdg, g.filter (fun r => decide (r.id = kp)) = [bdg] ∧ bdg ∈ g ∧ bdg.id = kp := by
  intro g
  induction g with
  | nil => intro kp _ h; simp at h
  | cons b g ih =>
    intro kp hnd hkp
    rw [List.map_cons] at hnd hkp
    rw [List.nodup_cons] at hnd
    by_cases hb : b.id = kp
    · refine ⟨b, ?_, List.mem_cons_self _ _, hb⟩
      rw [List.filter_cons_of_pos (by simp [hb])]
      have hnone : ∀ r ∈ g, ¬ (decide (r.id = kp) = true) := by
        intro r hr hrid
        rw [decide_eq_true_eq] at hrid
        apply hnd.1
        rw [hb, ← hrid]
        exact List.mem_map_of_mem _ hr
      rw [List.filter_eq_nil_iff.mpr hnone]
    · rw [List.filter_cons_of_neg (by simp [hb])]
      rcases List.mem_cons.mp hkp with h | h
      · exact absurd h.symm hb
      · obtain ⟨bdg, h1, h2, h3⟩ := ih kp hnd.2 h
        exact ⟨bdg, h1, List.mem_cons_of_mem _ h2, h3⟩

/-- On its own group, the cumulative deletion predicate keeps exactly the
rows carrying the surviving id. -/
theorem group_filter_pred (g : List Badge) (kp : ℤ) :
    g.filter (fun r => decide (∀ b ∈ g, b.id ≠ kp → r.id ≠ b.id)) =
      g.filter (fun r => decide (r.id = kp)) := by
  apply List.filter_congr
  intro r hr
  rw [decide_eq_decide]
  constructor
  · intro hall
    by_contra hid
    exact hall r hr hid rfl
  · intro hid b _ hbk
    rw [hid]
    exact fun h => hbk h.symm

/-- Rows of a different key pass the deletion predicate of another group:
processing key k' never deletes a row whose key differs, as long as ids are
unique. -/
theorem group_frame_pred (st1 : List Badge) (k k' : String × ℤ) (hkk : k ≠ k')
    (hnd : (st1.map Badge.id).Nodup) (keep' : ℤ) :
    ∀ r ∈ groupOf st1 k,
      decide (∀ b ∈ groupOf st1 k', b.id ≠ keep' → r.id ≠ b.id) = true := by
  intro r hr
  rw [decide_eq_true_eq]
  intro b hb _ hrb
  have hrm := groupOf_mem.mp hr
  have hbm := groupOf_mem.mp hb
  have : r = b := id_inj_of_nodup hnd hrm.1 hbm.1 hrb
  exact hkk (by rw [← hrm.2, this, hbm.2])

theorem processGroup_fst_sublist (st : List Badge × List ℤ) (k : String × ℤ) :
    (processGroup st k).1 <+ st.1 := by
  rw [processGroup_fst, tbFold_filter]
  exact List.filter_sublist _

/-- Processing another group leaves the ledger membership of any id outside
that group unchanged. -/
theorem processGroup_snd_frame (st : List Badge × List ℤ) (k' : String × ℤ) (x : ℤ)
    (hx : x ∉ (groupOf st.1 k').map Badge.id) :
    x ∈ (processGroup st k').2 ↔ x ∈ st.2 := by
  rw [processGroup_snd]
  cases hg : groupOf st.1 k' with
  | nil => exact Iff.rfl
  | cons b bs =>
    rw [hg] at hx
    have hkp : keeper (b :: bs) ∈ (b :: bs).map Badge.id :=
      keeper_mem _ (List.cons_ne_nil _ _)
    have hxk : x ≠ keeper (b :: bs) := fun h => hx (h ▸ hkp)
    exact ubFold_frame _ x _ st.2 hx hxk

/-- Frame lemma for a fold over keys not containing k: the sublist
invariant, the group of k (as a list, in order), and ledger membership of
any id of the original group of k are all preserved. -/
theorem ksFold_frame (badges : List Badge) (k : String × ℤ)
    (hids : (badges.map Badge.id).Nodup) :
    ∀ (ks : List (String × ℤ)) (st : List Badge × List ℤ),
      k ∉ ks → st.1 <+ badges →
      (ks.foldl processGroup st).1 <+ badges ∧
      groupOf (ks.foldl processGroup st).1 k = groupOf st.1 k ∧
      (∀ x ∈ (groupOf badges k).map Badge.id,
        (x ∈ (ks.foldl processGroup st).2 ↔ x ∈ st.2)) := by
  intro ks
  induction ks with
  | nil => intro st _ hsub; exact ⟨hsub, rfl, fun _ _ => Iff.rfl⟩
  | cons k' ks ih =>
    intro st hk hsub
    have hkk : k ≠ k' := fun h => hk (h ▸ List.mem_cons_self _ _)
    have hkks : k ∉ ks := fun h => hk (List.mem_cons_of_mem _ h)
    have hndst : (st.1.map Badge.id).Nodup := ids_nodup_sublist hsub hids
    have hsub' : (processGroup st k').1 <+ st.1 := processGroup_fst_sublist st k'
    have hsubB : (processGroup st k').1 <+ badges := hsub'.trans hsub
    rw [List.foldl_cons]
    obtain ⟨ha, hb, hc⟩ := ih (processGroup st k') hkks hsubB
    refine ⟨ha, ?_, ?_⟩
    · rw [hb, processGroup_fst, tbFold_filter, groupOf_filter]
      exact List.filter_eq_self.mpr (group_frame_pred st.1 k k' hkk hndst _)
    · intro x hx
      rw [hc x hx]
      apply processGroup_snd_frame
      intro hmem
      rw [List.mem_map] at hx hmem
      obtain ⟨r, hr, hrid⟩ := hx
      obtain ⟨b, hbmem, hbid⟩ := hmem
      have hrm := groupOf_mem.mp hr
      have hbm := groupOf_mem.mp hbmem
      have hrb : r = b :=
        id_inj_of_nodup hids hrm.1 (hsub.subset hbm.1) (by rw [hrid, hbid])
      exact hkk (by rw [← hrm.2, hrb, hbm.2])

/- ### Duplicate-badge cleanup behaviour (claim C7) -/

/-- Claim C7 (amended): when the milestone definition table contains two or
more definitions with the same (kind, threshold) pair, the deduplication
pass leaves exactly one definition for that pair — the one whose display
name contains characters of the preferred (Hebrew) script if such a
definition exists, else the first encountered — and unlock records
referencing a removed definition are repointed to the surviving one only
when the surviving definition has no unlock record of its own at the time
of the update: if the survivor was already unlocked the group's records are
left unchanged (a record for a removed definition then remains, dangling);
if the survivor was not unlocked and exactly one record references the
group, that record is repointed to the survivor; whenever any record
references the group, the survivor is referenced afterwards. -/
theorem C7_amended (badges : List Badge) (ub : List ℤ) (k : String × ℤ)
    (hids : (badges.map Badge.id).Nodup)
    (hpos : ∀ b ∈ badges, b.id ≠ (0 : ℤ))
    (hk : k ∈ dupKeys badges) :
    (∃ bdg, groupOf (cleanup_duplicate_badges badges ub).1 k = [bdg] ∧
        bdg ∈ groupOf badges k ∧ bdg.id = keeper (groupOf badges k)) ∧
    (∀ pre bdg post, groupOf badges k = pre ++ bdg :: post →
        hasHebrew bdg.name = true → (∀ p ∈ pre, hasHebrew p.name = false) →
        keeper (groupOf badges k) = bdg.id) ∧
    ((∀ bdg ∈ groupOf badges k, hasHebrew bdg.name = false) →
      ∀ h0 t0, groupOf badges k = h0 :: t0 → keeper (groupOf badges k) = h0.id) ∧
    ((∃ y ∈ ub, y ∈ (groupOf badges k).map Badge.id) →
      keeper (groupOf badges k) ∈ (cleanup_duplicate_badges badges ub).2) ∧
    (keeper (groupOf badges k) ∈ ub →
      ∀ x ∈ (groupOf badges k).map Badge.id,
        (x ∈ (cleanup_duplicate_badges badges ub).2 ↔ x ∈ ub)) ∧
    (∀ x, keeper (groupOf badges k) ∉ ub → x ∈ ub →
      x ∈ (groupOf badges k).map Badge.id → x ≠ keeper (groupOf badges k) →
      (∀ y ∈ ub, y ∈ (groupOf badges k).map Badge.id → y = x) →
      x ∉ (cleanup_duplicate_badges badges ub).2 ∧
      keeper (groupOf badges k) ∈ (cleanup_duplicate_badges badges ub).2) := by
  have hglen : 1 < (groupOf badges k).length := by
    have := (List.mem_filter.mp hk).2
    rwa [decide_eq_true_eq] at this
  have hgne : groupOf badges k ≠ [] := by
    intro h
    rw [h] at hglen
    simp at hglen
  have hgsub : groupOf badges k <+ badges := groupOf_sublist badges k
  have hgnd : ((groupOf badges k).map Badge.id).Nodup := ids_nodup_sublist hgsub hids
  have hkpmem : keeper (groupOf badges k) ∈ (groupOf badges k).map Badge.id :=
    keeper_mem _ hgne
  obtain ⟨ks1, ks2, hsplit⟩ := List.append_of_mem hk
  have hnodup : (dupKeys badges).Nodup := (List.nodup_dedup _).filter _
  rw [hsplit] at hnodup
  obtain ⟨hn1, hn2, hdisj⟩ := List.nodup_append.mp hnodup
  have hk2 : k ∉ ks2 := (List.nodup_cons.mp hn2).1
  have hk1 : k ∉ ks1 := fun h => hdisj h (List.mem_cons_self _ _)
  have hclean : cleanup_duplicate_badges badges ub =
      ks2.foldl processGroup (processGroup (ks1.foldl processGroup (badges, ub)) k) := by
    unfold cleanup_duplicate_badges
    rw [hsplit, List.foldl_append, List.foldl_cons]
  obtain ⟨hA1, hA2, hA3⟩ :=
    ksFold_frame badges k hids ks1 (badges, ub) hk1 (List.Sublist.refl badges)
  set stA : List Badge × List ℤ := ks1.foldl processGroup (badges, ub) with hstA
  have hA2' : groupOf stA.1 k = groupOf badges k := hA2
  have hA3' : ∀ x ∈ (groupOf badges k).map Badge.id, (x ∈ stA.2 ↔ x ∈ ub) := hA3
  have hBtab : groupOf (processGroup stA k).1 k =
      (groupOf badges k).filter
        (fun r => decide (r.id = keeper (groupOf badges k))) := by
    rw [processGroup_fst, tbFold_filter, groupOf_filter, hA2', group_filter_pred]
  have hBub : (processGroup stA k).2 =
      (groupOf badges k).foldl (ubStep (keeper (groupOf badges k))) stA.2 := by
    rw [processGroup_snd, hA2']
  have hBsub : (processGroup stA k).1 <+ badges :=
    (processGroup_fst_sublist stA k).trans hA1
  obtain ⟨hC1, hC2, hC3⟩ := ksFold_frame badges k hids ks2 (processGroup stA k) hk2 hBsub
  rw [hclean]
  refine ⟨?_, ?_, ?_, ?_, ?_, ?_⟩
  · rw [hC2, hBtab]
    exact filter_id_singleton (groupOf badges k) (keeper (groupOf badges k)) hgnd hkpmem
  · intro pre bdg post hgeq hheb hpre
    have hbg : bdg ∈ groupOf badges k := by
      rw [hgeq]
      exact List.mem_append_right _ (List.mem_cons_self _ _)
    have hfh : findHebrew (groupOf badges k) = some bdg.id := by
      rw [hgeq]
      exact findHebrew_first pre bdg post hheb hpre
    exact keeper_of_some _ _ hfh (hpos bdg (groupOf_mem.mp hbg).1)
  · intro hall h0 t0 hgeq
    have hfh : findHebrew (groupOf badges k) = none := findHebrew_none _ hall
    rw [hgeq] at hfh ⊢
    exact keeper_of_none h0 t0 hfh
  · rintro ⟨y, hyu, hyg⟩
    rw [hC3 _ hkpmem, hBub]
    exact ubFold_keep_mem _ _ stA.2 ⟨y, (hA3' y hyg).mpr hyu, hyg⟩
  · intro hkpu x hxg
    rw [hC3 x hxg, hBub, ubFold_keep_eq _ _ stA.2 ((hA3' _ hkpmem).mpr hkpu)]
    exact hA3' x hxg
  · intro x hkpn hxu hxg hxk huniq
    have hkpA : keeper (groupOf badges k) ∉ stA.2 := fun h => hkpn ((hA3' _ hkpmem).mp h)
    have hxA : x ∈ stA.2 := (hA3' x hxg).mpr hxu
    have huniqA : ∀ y ∈ stA.2, y ∈ (groupOf badges k).map Badge.id → y = x :=
      fun y hy hyg => huniq y ((hA3' y hyg).mp hy) hyg
    obtain ⟨hout, hin⟩ := ubFold_repoint (keeper (groupOf badges k)) x
      (groupOf badges k) stA.2 hkpA hxA hxg hxk huniqA
    constructor
    · rw [hC3 x hxg, hBub]
      exact hout
    · rw [hC3 _ hkpmem, hBub]
      exact hin

theorem C7_amended_witness :
    (([Badge.mk 1 "A" "exercise_count" 1,
        Badge.mk 2 "B" "exercise_count" 1].map Badge.id).Nodup ∧
     (∀ b ∈ [Badge.mk 1 "A" "exercise_count" 1,
        Badge.mk 2 "B" "exercise_count" 1], b.id ≠ (0 : ℤ)) ∧
     ("exercise_count", (1 : ℤ)) ∈
        dupKeys [Badge.mk 1 "A" "exercise_count" 1,
          Badge.mk 2 "B" "exercise_count" 1]) ∧
    ((∃ bdg, groupOf (cleanup_duplicate_badges
          [Badge.mk 1 "A" "exercise_count" 1, Badge.mk 2 "B" "exercise_count" 1]
          [2]).1 ("exercise_count", (1 : ℤ)) = [bdg] ∧
        bdg ∈ groupOf [Badge.mk 1 "A" "exercise_count" 1,
          Badge.mk 2 "B" "exercise_count" 1] ("exercise_count", (1 : ℤ)) ∧
        bdg.id = keeper (groupOf [Badge.mk 1 "A" "exercise_count" 1,
          Badge.mk 2 "B" "exercise_count" 1] ("exercise_count", (1 : ℤ)))) ∧
     (∀ pre bdg post, groupOf [Badge.mk 1 "A" "exercise_count" 1,
          Badge.mk 2 "B" "exercise_count" 1] ("exercise_count", (1 : ℤ)) =
            pre ++ bdg :: post →
        hasHebrew bdg.name = true → (∀ p ∈ pre, hasHebrew p.name = false) →
        keeper (groupOf [Badge.mk 1 "A" "exercise_count" 1,
          Badge.mk 2 "B" "exercise_count" 1] ("exercise_count", (1 : ℤ))) = bdg.id) ∧
     ((∀ bdg ∈ groupOf [Badge.mk 1 "A" "exercise_count" 1,
          Badge.mk 2 "B" "exercise_count" 1] ("exercise_count", (1 : ℤ)),
        hasHebrew bdg.name = false) →
      ∀ h0 t0, groupOf [Badge.mk 1 "A" "exercise_count" 1,
          Badge.mk 2 "B" "exercise_count" 1] ("exercise_count", (1 : ℤ)) = h0 :: t0 →
        keeper (groupOf [Badge.mk 1 "A" "exercise_count" 1,
          Badge.mk 2 "B" "exercise_count" 1] ("exercise_count", (1 : ℤ))) = h0.id) ∧
     ((∃ y ∈ ([2] : List ℤ), y ∈ (groupOf [Badge.mk 1 "A" "exercise_count" 1,
          Badge.mk 2 "B" "exercise_count" 1] ("exercise_count", (1 : ℤ))).map Badge.id) →
      keeper (groupOf [Badge.mk 1 "A" "exercise_count" 1,
          Badge.mk 2 "B" "exercise_count" 1] ("exercise_count", (1 : ℤ))) ∈
        (cleanup_duplicate_badges [Badge.mk 1 "A" "exercise_count" 1,
          Badge.mk 2 "B" "exercise_count" 1] [2]).2) ∧
     (keeper (groupOf [Badge.mk 1 "A" "exercise_count" 1,
          Badge.mk 2 "B" "exercise_count" 1] ("exercise_count", (1 : ℤ))) ∈
          ([2] : List ℤ) →
      ∀ x ∈ (groupOf [Badge.mk 1 "A" "exercise_count" 1,
          Badge.mk 2 "B" "exercise_count" 1] ("exercise_count", (1 : ℤ))).map Badge.id,
        (x ∈ (cleanup_duplicate_badges [Badge.mk 1 "A" "exercise_count" 1,
          Badge.mk 2 "B" "exercise_count" 1] [2]).2 ↔ x ∈ ([2] : List ℤ))) ∧
     (∀ x, keeper (groupOf [Badge.mk 1 "A" "exercise_count" 1,
          Badge.mk 2 "B" "exercise_count" 1] ("exercise_count", (1 : ℤ))) ∉
            ([2] : List ℤ) →
        x ∈ ([2] : List ℤ) →
        x ∈ (groupOf [Badge.mk 1 "A" "exercise_count" 1,
          Badge.mk 2 "B" "exercise_count" 1] ("exercise_count", (1 : ℤ))).map Badge.id →
        x ≠ keeper (groupOf [Badge.mk 1 "A" "exercise_count" 1,
          Badge.mk 2 "B" "exercise_count" 1] ("exercise_count", (1 : ℤ))) →
        (∀ y ∈ ([2] : List ℤ),
          y ∈ (groupOf [Badge.mk 1 "A" "exercise_count" 1,
            Badge.mk 2 "B" "exercise_count" 1] ("exercise_count", (1 : ℤ))).map
              Badge.id → y = x) →
        x ∉ (cleanup_duplicate_badges [Badge.mk 1 "A" "exercise_count" 1,
          Badge.mk 2 "B" "exercise_count" 1] [2]).2 ∧
        keeper (groupOf [Badge.mk 1 "A" "exercise_count" 1,
          Badge.mk 2 "B" "exercise_count" 1] ("exercise_count", (1 : ℤ))) ∈
          (cleanup_duplicate_badges [Badge.mk 1 "A" "exercise_count" 1,
            Badge.mk 2 "B" "exercise_count" 1] [2]).2)) :=
  ⟨⟨by decide, by decide, by decide⟩,
    C7_amended [Badge.mk 1 "A" "exercise_count" 1, Badge.mk 2 "B" "exercise_count" 1]
      [2] ("exercise_count", (1 : ℤ)) (by decide) (by decide) (by decide)⟩

/- ### Date parsing and `add_exercise` (src/app.py lines 556-620) -/

/-- Gregorian leap-year rule, as used by Python's `datetime`. -/
def isLeap (y : ℕ) : Bool := y % 4 = 0 ∧ (y % 100 ≠ 0 ∨ y % 400 = 0)

/-- Days in a month of a given year (Python `calendar`/`datetime` rule). -/
def daysInMonth (y m : ℕ) : ℕ :=
  if m = 2 then (if isLeap y then 29 else 28)
  else if m = 4 ∨ m = 6 ∨ m = 9 ∨ m = 11 then 30
  else 31

/-- Days in the months of year `y` strictly before month `m`. -/
def daysBeforeMonth (y m : ℕ) : ℕ :=
  (List.range (m - 1)).foldl (fun acc i => acc + daysInMonth y (i + 1)) 0

/-- `date(y, m, d).toordinal()`: day number in the proleptic Gregorian
calendar, with 0001-01-01 as day 1. -/
def toOrdinal (y m d : ℕ) : ℤ :=
  (((y - 1) * 365 + (y - 1) / 4 + (y - 1) / 400 + daysBeforeMonth y m + d : ℕ) : ℤ) -
    (((y - 1) / 100 : ℕ) : ℤ)

/-- Split a character list at each literal dash. -/
def splitDash : List Char → List (List Char)
  | [] => [[]]
  | c :: cs =>
    if c = '-' then [] :: splitDash cs
    else
      match splitDash cs with
      | [] => [[c]]
      | p :: ps => (c :: p) :: ps

/-- The numeric value of a non-empty all-digit character list. -/
def digitsVal (cs : List Char) : Option ℕ :=
  if cs ≠ [] ∧ cs.all Char.isDigit then
    some (cs.foldl (fun a c => a * 10 + (c.toNat - 48)) 0)
  else none

/-- Models `datetime.strptime(date_str, chr(37) ++ "Y-" ++ ...).date()`
followed by `toordinal` — the date validation performed by `add_exercise`
(src/app.py lines 559-562).  CPython's strptime matches the year as exactly
four digits, month and day as one or two digits, requires the whole string
to be consumed, and the `datetime` constructor then enforces year ≥ 1,
1 ≤ month ≤ 12 and 1 ≤ day ≤ days-in-month.  Returns the ordinal of the
parsed calendar date, or `none` when validation fails. -/
def parseDate (s : String) : Option ℤ :=
  match splitDash s.data with
  | [ys, ms, ds] =>
    match digitsVal ys, digitsVal ms, digitsVal ds with
    | some y, some m, some d =>
      if ys.length = 4 ∧ ms.length ≤ 2 ∧ ds.length ≤ 2 ∧
          1 ≤ y ∧ 1 ≤ m ∧ m ≤ 12 ∧ 1 ≤ d ∧ d ≤ daysInMonth y m then
        some (toOrdinal y m d)
      else none
    | _, _, _ => none
  | _ => none

/-- Insert a date into the distinct descending date list (the effect of the
`INSERT INTO daily_entries` get-or-create of src/app.py lines 581-589 on
the `SELECT DISTINCT ... ORDER BY entry_date DESC` view). -/
def insertDesc (d : ℤ) : List ℤ → List ℤ
  | [] => [d]
  | x :: xs =>
    if d > x then d :: x :: xs
    else if d = x then x :: xs
    else x :: insertDesc d xs

/-- The application state `add_exercise` touches: the distinct descending
entry dates, the exercise count, the per-subject counts, the badge table
and the unlock ledger.  (Per-exercise note fields and subject tagging do
not influence the claims and are not tracked.) -/
structure AppState where
  entry_dates : List ℤ
  total_exercises : ℤ
  subject_counts : List ℤ
  badges : List Badge
  user_badges : List ℤ
deriving DecidableEq

/-- `add_exercise` (src/app.py lines 556-620): the caller-supplied date
string is validated first; failure returns the 400 error "Invalid date
format" before any state is touched.  A missing or falsy exercise number is
rejected next.  Otherwise the entry is created if needed, the exercise log
is inserted, and `check_badges` runs; the new state and the newly unlocked
badges are returned. -/
def add_exercise (today : ℤ) (date_str : String) (exercise_number : Option String)
    (st : AppState) : Except (String × ℕ) (AppState × List Badge) :=
  match parseDate date_str with
  | none => .error ("Invalid date format", 400)
  | some d =>
    match exercise_number with
    | none => .error ("Exercise number is required", 400)
    | some n =>
      if n = "" then .error ("Exercise number is required", 400)
      else
        let dates := insertDesc d st.entry_dates
        let total := st.total_exercises + 1
        let r := check_badges today total st.subject_counts dates st.badges st.user_badges
        .ok ({ st with
                entry_dates := dates
                total_exercises := total
                user_badges := r.2 }, r.1)

/- ### Malformed dates are rejected first (claim C9) -/

/-- Claim C9: every caller-supplied date string that fails calendar-format
validation is rejected by `add_exercise` with the 400 "Invalid date format"
error, for every state and every other argument — so no streak computation
runs and no state mutation occurs (the error carries no successor state),
and the empty-streak fallback is never reached on malformed input. -/
theorem C9_invalid_date_rejected (today : ℤ) (date_str : String)
    (exercise_number : Option String) (st : AppState)
    (hbad : parseDate date_str = none) :
    add_exercise today date_str exercise_number st =
      .error ("Invalid date format", 400) := by
  unfold add_exercise
  rw [hbad]

theorem C9_invalid_date_rejected_witness :
    parseDate "2024-02-30" = none ∧
    add_exercise 0 "2024-02-30" (Option.some "1")
        (AppState.mk [] 0 [] [] []) =
      .error ("Invalid date format", 400) :=
  ⟨by decide, C9_invalid_date_rejected 0 "2024-02-30" (Option.some "1")
    (AppState.mk [] 0 [] [] []) (by decide)⟩

end StudySync
